import Mathlib

/-!
Verification of the configuration file
`tractseg/experiments/pretrained_models/old/EndingsSeg_12g90g270g_125mm_DAugAll.py`.

The file defines a class `Config` extending the external base class
`EndingsSegConfig` and overrides exactly three class attributes:

  EXP_NAME = os.path.basename(__file__).split(".")[0]
  NUM_EPOCHS = 500
  DATA_AUGMENTATION = True

We embed the string operations used for `EXP_NAME` (POSIX `os.path.basename`
and Python `str.split` with a one-character separator followed by indexing
with `[0]`), and the attribute-lookup semantics of the class (own overrides
first, then the base class).
-/

/-- Python `str.split(sep)` for a single-character separator `sep`,
over the character list of the string.  Python keeps empty segments:
`"".split(".") == [""]`, `".a".split(".") == ["", "a"]`,
`"a.".split(".") == ["a", ""]`. -/
def splitOnChar (sep : Char) : List Char → List (List Char)
  | [] => [[]]
  | c :: cs =>
    let r := splitOnChar sep cs
    if c = sep then [] :: r
    else (c :: r.headD []) :: r.tail

/-- POSIX `os.path.basename`: the part of the path after the last `/`. -/
def basenameOf (p : String) : String :=
  String.mk ((splitOnChar '/' p.data).getLastD [])

/-- The list `os.path.basename(path).split(".")` computed by the source. -/
def expNameSegments (p : String) : List (List Char) :=
  splitOnChar '.' (basenameOf p).data

/-- The `[0]` indexing of the source, modelled fallibly: Python raises
`IndexError` when the index is out of bounds, which we model as `none`. -/
def expNameOpt (p : String) : Option String :=
  ((expNameSegments p).get? 0).map String.mk

/-- Total version of the name derivation
`os.path.basename(path).split(".")[0]`. -/
def expName (p : String) : String :=
  String.mk ((expNameSegments p).headD [])

/-- The path of the defining file (`__file__` in the source). -/
def definingFile : String :=
  "src/tractseg/experiments/pretrained_models/old/EndingsSeg_12g90g270g_125mm_DAugAll.py"

/-- Values that the three overridden configuration attributes take. -/
inductive ConfigValue
  | str : String → ConfigValue
  | int : Int → ConfigValue
  | bool : Bool → ConfigValue
deriving DecidableEq

/-- `Config.EXP_NAME = os.path.basename(__file__).split(".")[0]`. -/
def Config.EXP_NAME : String := expName definingFile

/-- `Config.NUM_EPOCHS = 500`. -/
def Config.NUM_EPOCHS : Int := 500

/-- `Config.DATA_AUGMENTATION = True`. -/
def Config.DATA_AUGMENTATION : Bool := true

/-- The attribute names bound in the class body of `Config`. -/
def overriddenKeys : List String :=
  ["EXP_NAME", "NUM_EPOCHS", "DATA_AUGMENTATION"]

/-- Modelled from the spec: the external base configuration class
`EndingsSegConfig` (module `tractseg.experiments.endings_seg`, not part of
the supplied source) defines a full set of experiment keys whose concrete
values are unknown; it is represented abstractly as an attribute map
`String → Option ConfigValue`.  Python attribute lookup on the derived
class `Config` consults the class's own dictionary first and falls back to
the base class. -/
def Config.getattr (base : String → Option ConfigValue) (k : String) :
    Option ConfigValue :=
  if k = "EXP_NAME" then some (ConfigValue.str Config.EXP_NAME)
  else if k = "NUM_EPOCHS" then some (ConfigValue.int Config.NUM_EPOCHS)
  else if k = "DATA_AUGMENTATION" then
    some (ConfigValue.bool Config.DATA_AUGMENTATION)
  else base k

/-- The configuration record as constructed once by the training harness:
the merged attribute map of `Config` over the given base. -/
def Config.mkState (base : String → Option ConfigValue) :
    String → Option ConfigValue :=
  fun k => Config.getattr base k

/-- The operations the file defines on a constructed configuration: only
attribute reads (the file defines no methods and no mutators). -/
inductive ConfigOp
  | read : String → ConfigOp

/-- Running a sequence of operations against a constructed configuration,
returning the final configuration state and the observed values. -/
def runOps (c : String → Option ConfigValue) :
    List ConfigOp → (String → Option ConfigValue) × List (Option ConfigValue)
  | [] => (c, [])
  | ConfigOp.read k :: ops =>
    let r := runOps c ops
    (r.fst, c k :: r.snd)

/-- The name derivation as the words of the spec sentence for C2 describe
it: the base name with the file extension stripped, i.e. everything up to
the LAST dot of the base name (the whole base name when it has no dot). -/
def stemUpToLastDot (s : String) : String :=
  if '.' ∈ s.data then
    String.mk ((((s.data.reverse).dropWhile (fun c => c ≠ '.')).drop 1).reverse)
  else s

/-- The name derivation as the code actually performs it, stated in spec
style: the segment of the base name before its FIRST dot. -/
def stemUpToFirstDot (s : String) : String :=
  String.mk (s.data.takeWhile (fun c => c ≠ '.'))

/-- A sample base attribute map used to witness inheritance of a key this
file does not override. -/
def exampleBase : String → Option ConfigValue :=
  fun k => if k = "BATCH_SIZE" then some (ConfigValue.int 47) else none

theorem splitOnChar_ne_nil (sep : Char) (l : List Char) :
    splitOnChar sep l ≠ [] := by
  cases l with
  | nil => simp [splitOnChar]
  | cons c cs =>
    simp only [splitOnChar]
    split <;> simp

theorem splitOnChar_sep_not_mem (sep : Char) (l : List Char) :
    ∀ seg ∈ splitOnChar sep l, sep ∉ seg := by
  induction l with
  | nil =>
    intro seg hseg
    simp [splitOnChar] at hseg
    simp [hseg]
  | cons c cs ih =>
    intro seg hseg
    by_cases hc : c = sep
    · rw [splitOnChar] at hseg
      simp only [if_pos hc] at hseg
      rcases List.mem_cons.mp hseg with h0 | h0
      · simp [h0]
      · exact ih seg h0
    · rw [splitOnChar] at hseg
      simp only [if_neg hc] at hseg
      cases hr : splitOnChar sep cs with
      | nil => exact absurd hr (splitOnChar_ne_nil sep cs)
      | cons hd t =>
        rw [hr] at hseg
        simp only [List.headD_cons, List.tail_cons] at hseg
        rcases List.mem_cons.mp hseg with h0 | h0
        · subst h0
          intro hmem
          rcases List.mem_cons.mp hmem with h1 | h1
          · exact hc h1.symm
          · exact ih hd (hr ▸ List.mem_cons_self hd t) h1
        · exact ih seg (hr ▸ List.mem_cons_of_mem hd h0)

theorem splitOnChar_subset (sep : Char) (l : List Char) :
    ∀ seg ∈ splitOnChar sep l, ∀ c ∈ seg, c ∈ l := by
  induction l with
  | nil =>
    intro seg hseg
    simp [splitOnChar] at hseg
    simp [hseg]
  | cons c cs ih =>
    intro seg hseg d hd
    by_cases hc : c = sep
    · rw [splitOnChar] at hseg
      simp only [if_pos hc] at hseg
      rcases List.mem_cons.mp hseg with h0 | h0
      · subst h0; simp at hd
      · exact List.mem_cons_of_mem c (ih seg h0 d hd)
    · rw [splitOnChar] at hseg
      simp only [if_neg hc] at hseg
      cases hr : splitOnChar sep cs with
      | nil => exact absurd hr (splitOnChar_ne_nil sep cs)
      | cons hd0 t =>
        rw [hr] at hseg
        simp only [List.headD_cons, List.tail_cons] at hseg
        rcases List.mem_cons.mp hseg with h0 | h0
        · subst h0
          rcases List.mem_cons.mp hd with h1 | h1
          · exact h1 ▸ List.mem_cons_self c cs
          · exact List.mem_cons_of_mem c
              (ih hd0 (hr ▸ List.mem_cons_self hd0 t) d h1)
        · exact List.mem_cons_of_mem c
            (ih seg (hr ▸ List.mem_cons_of_mem hd0 h0) d hd)

theorem splitOnChar_headD (sep : Char) (l : List Char) :
    (splitOnChar sep l).headD [] = l.takeWhile (fun c => c ≠ sep) := by
  induction l with
  | nil => rfl
  | cons c cs ih =>
    by_cases hc : c = sep
    · simp [splitOnChar, hc, List.takeWhile_cons]
    · rw [splitOnChar]
      simp only [if_neg hc]
      cases hr : splitOnChar sep cs with
      | nil => exact absurd hr (splitOnChar_ne_nil sep cs)
      | cons hd t =>
        rw [hr] at ih
        simp only [List.headD_cons] at ih ⊢
        simp only [List.takeWhile_cons, hc, decide_not]
        simp only [decide_False, Bool.not_false, if_true]
        simpa [decide_not] using ih

theorem getattr_not_overridden (base : String → Option ConfigValue)
    (k : String) (h : k ∉ overriddenKeys) :
    Config.getattr base k = base k := by
  simp only [overriddenKeys, List.mem_cons, List.mem_singleton] at h
  push_neg at h
  obtain ⟨h1, h2, h3⟩ := h
  simp [Config.getattr, h1, h2, h3]

theorem expNameSegments_ne_nil (p : String) : expNameSegments p ≠ [] :=
  splitOnChar_ne_nil '.' (basenameOf p).data

theorem getLastD_mem_of_ne_nil {α : Type} (l : List α) (d : α) (h : l ≠ []) :
    l.getLastD d ∈ l := by
  induction l generalizing d with
  | nil => exact absurd rfl h
  | cons a t ih =>
    cases t with
    | nil => simp [List.getLastD]
    | cons b u =>
      rw [List.getLastD_cons]
      exact List.mem_cons_of_mem a (ih a (List.cons_ne_nil b u))

theorem headD_mem_of_ne_nil {α : Type} (l : List α) (d : α) (h : l ≠ []) :
    l.headD d ∈ l := by
  cases l with
  | nil => exact absurd rfl h
  | cons a t => exact List.mem_cons_self a t

theorem runOps_fst (c : String → Option ConfigValue) (ops : List ConfigOp) :
    (runOps c ops).fst = c := by
  induction ops with
  | nil => rfl
  | cons op rest ih =>
    cases op with
    | read k => simpa [runOps] using ih

/-- C1: the configuration produced by this file has `EXP_NAME` equal to the
exact string "EndingsSeg_12g90g270g_125mm_DAugAll", the base name of the
defining file with its extension removed. -/
theorem c1_exp_name_value :
    Config.EXP_NAME = "EndingsSeg_12g90g270g_125mm_DAugAll" := by
  decide

/-- C2 counterexample: the name derivation is NOT "everything up to the last
dot of the base name": on the path "dir/a.b.py" the code derives "a", while
everything up to the last dot of the base name is "a.b". -/
theorem c2_counterexample :
    expName "dir/a.b.py" = "a" ∧
      stemUpToLastDot (basenameOf "dir/a.b.py") = "a.b" ∧
      expName "dir/a.b.py" ≠ stemUpToLastDot (basenameOf "dir/a.b.py") := by
  refine ⟨by decide, by decide, by decide⟩

/-- C2 (amended): for every file path, the name-derivation operation used
for `EXP_NAME` returns the segment of the base name before the FIRST dot of
the base name (the whole base name when it contains no dot). -/
theorem c2_exp_name_first_dot (p : String) :
    expName p = stemUpToFirstDot (basenameOf p) := by
  unfold expName expNameSegments stemUpToFirstDot
  rw [splitOnChar_headD]

/-- C3: the configuration produced by this file has `NUM_EPOCHS` equal to
the integer 500, both as the override value and through attribute lookup on
the merged configuration. -/
theorem c3_num_epochs :
    Config.NUM_EPOCHS = 500 ∧
      ∀ base : String → Option ConfigValue,
        Config.getattr base "NUM_EPOCHS" = some (ConfigValue.int 500) := by
  refine ⟨rfl, fun base => ?_⟩
  simp [Config.getattr, Config.NUM_EPOCHS]

/-- C4: the configuration produced by this file has `DATA_AUGMENTATION`
equal to the boolean value true, both as the override value and through
attribute lookup on the merged configuration. -/
theorem c4_data_augmentation :
    Config.DATA_AUGMENTATION = true ∧
      ∀ base : String → Option ConfigValue,
        Config.getattr base "DATA_AUGMENTATION" =
          some (ConfigValue.bool true) := by
  refine ⟨rfl, fun base => ?_⟩
  simp [Config.getattr, Config.DATA_AUGMENTATION]

/-- C5: for every field other than EXP_NAME, NUM_EPOCHS and
DATA_AUGMENTATION, the configuration produced by this file resolves the
field to the base configuration's value: the override is a partial overlay,
not a full replacement. -/
theorem c5_partial_overlay (base : String → Option ConfigValue) (k : String)
    (h : k ∉ overriddenKeys) : Config.getattr base k = base k :=
  getattr_not_overridden base k h

/-- C5 witness: the key "BATCH_SIZE" is not overridden and is resolved from
the base configuration. -/
theorem c5_partial_overlay_witness :
    "BATCH_SIZE" ∉ overriddenKeys ∧
      Config.getattr exampleBase "BATCH_SIZE" = exampleBase "BATCH_SIZE" :=
  ⟨by decide, c5_partial_overlay exampleBase "BATCH_SIZE" (by decide)⟩

/-- C6: the set of keys overridden by this file relative to the base
configuration is exactly {EXP_NAME, NUM_EPOCHS, DATA_AUGMENTATION}: a key
is in `overriddenKeys` precisely when some base configuration resolves it
differently through `Config` than on its own. -/
theorem c6_overridden_keys_exact (k : String) :
    k ∈ overriddenKeys ↔
      ∃ base : String → Option ConfigValue, Config.getattr base k ≠ base k := by
  constructor
  · intro hk
    refine ⟨fun _ => none, ?_⟩
    simp only [overriddenKeys, List.mem_cons, List.not_mem_nil, or_false] at hk
    rcases hk with rfl | rfl | rfl <;> simp [Config.getattr]
  · rintro ⟨base, hb⟩
    by_contra hk
    exact hb (getattr_not_overridden base k hk)

/-- C7: constructing the configuration never fails: for every defining file
path the `[0]` indexing into the result of splitting the base name on dots
is in bounds (splitting always yields at least one segment), so the
fallible derivation returns a value and no error path exists. -/
theorem c7_construction_total (p : String) :
    expNameOpt p = some (expName p) := by
  unfold expNameOpt expName
  cases h : expNameSegments p with
  | nil => exact absurd h (expNameSegments_ne_nil p)
  | cons a t => simp [h]

/-- C8: after construction the configuration is read-only: running any
sequence of the operations this file defines (attribute reads only, since
the file defines no mutators) leaves every field of the constructed
configuration unchanged. -/
theorem c8_read_only (base : String → Option ConfigValue)
    (ops : List ConfigOp) :
    (runOps (Config.mkState base) ops).fst = Config.mkState base :=
  runOps_fst (Config.mkState base) ops

/-- C9: for every file path whose base name begins with a dot, the name
derivation returns the empty string, because the name is the segment before
the first dot of the base name. -/
theorem c9_hidden_file_empty (p : String)
    (h : (basenameOf p).data.head? = some '.') : expName p = "" := by
  unfold expName expNameSegments
  cases hd : (basenameOf p).data with
  | nil => rw [hd] at h; exact absurd h (by simp)
  | cons c cs =>
    rw [hd] at h
    simp only [List.head?_cons, Option.some_inj] at h
    subst h
    have hsplit : splitOnChar '.' ('.' :: cs) = [] :: splitOnChar '.' cs := by
      simp [splitOnChar]
    rw [hsplit]
    rfl

/-- C9 witness: the hidden file ".hidden.py" derives the empty name. -/
theorem c9_hidden_file_empty_witness :
    (basenameOf ".hidden.py").data.head? = some '.' ∧
      expName ".hidden.py" = "" :=
  ⟨by decide, c9_hidden_file_empty ".hidden.py" (by decide)⟩

/-- C10: the derived name is a deterministic pure function of the defining
file's path alone (equal paths give identical results), and the result
never contains a dot character or a path separator. -/
theorem c10_deterministic_no_dot_no_sep (p q : String) (hpq : p = q) :
    expName p = expName q ∧
      '.' ∉ (expName p).data ∧ '/' ∉ (expName p).data := by
  refine ⟨hpq ▸ rfl, ?_, ?_⟩
  · show '.' ∉ (expNameSegments p).headD []
    exact splitOnChar_sep_not_mem '.' (basenameOf p).data
      ((expNameSegments p).headD [])
      (headD_mem_of_ne_nil _ [] (expNameSegments_ne_nil p))
  · show '/' ∉ (expNameSegments p).headD []
    intro hmem
    have hbase : '/' ∈ (basenameOf p).data :=
      splitOnChar_subset '.' (basenameOf p).data
        ((expNameSegments p).headD [])
        (headD_mem_of_ne_nil _ [] (expNameSegments_ne_nil p)) '/' hmem
    have hlast : (basenameOf p).data ∈ splitOnChar '/' p.data :=
      getLastD_mem_of_ne_nil _ [] (splitOnChar_ne_nil '/' p.data)
    exact splitOnChar_sep_not_mem '/' p.data (basenameOf p).data hlast hbase

/-- C10 witness: instantiated at the defining file's path. -/
theorem c10_deterministic_no_dot_no_sep_witness :
    definingFile = definingFile ∧
      (expName definingFile = expName definingFile ∧
        '.' ∉ (expName definingFile).data ∧
        '/' ∉ (expName definingFile).data) :=
  ⟨rfl, c10_deterministic_no_dot_no_sep definingFile definingFile rfl⟩
